import Mathlib

/-!
Shallow embedding of the QRCEditor resource-collection core
(`src/qrcdata.py`, the data-model parts of `src/qrceditor.py`, and
`TabDlg.accept` from `src/qrcdlg.py`).

Python `str`-or-`None` values are modelled as `Option String`; machine
behaviour that the code relies on (truthiness, `"{0}".format(None)`,
negative list indexing, list lexicographic comparison raising `TypeError`)
is modelled explicitly.  File I/O is modelled by explicit maps
`String → Option String` (readable content per path) and write
permission predicates `String → Bool`; an uncaught Python exception is
modelled as the `Except.error` branch carrying the state at raise time.
-/

namespace Qrc

/-- Python truthiness of a `str`-or-`None` value: `None` and `""` are falsy. -/
def pyTruthy : Option String → Bool
  | none => false
  | some s => s ≠ ""

/-- Python `"{0}".format(x)` on a `str`-or-`None` value: `None` prints as "None". -/
def pyFormat : Option String → String
  | none => "None"
  | some s => s

/-- One `<file>` entry: `Resource` from `qrcdata.py`.  `file` is `Option`
because `ElementTree` gives `None` as the text of an empty element and the
class stores whatever it is given; `alias` defaults to `''` in the
constructor but is `None` for entries loaded without an `alias` attribute. -/
structure Resource where
  file : Option String
  aliasAttr : Option String
deriving DecidableEq, Repr

/-- One `<qresource>` group: `Resources` from `qrcdata.py` (a `list`
subclass with `language` and `prefix` tags; `prefixAttr` models the
`__prefix` field). -/
structure Resources where
  language : Option String
  prefixAttr : Option String
  entries : List Resource
deriving DecidableEq, Repr

/-- The aggregate root: `ResourceCollection` from `qrcdata.py` (a `list` of
`Resources` plus `__file_name` and `__dirty`). -/
structure ResourceCollection where
  groups : List Resources
  file_name : Option String
  dirty : Bool
deriving DecidableEq, Repr

/-- `Resources.is_duplicate`: collect the aliases of entries whose alias is
not `None`, then count occurrences of the queried value (`aliases.count(alias)`;
Python `==` between a `str` element and a possibly-`None` query). -/
def is_duplicate (rs : Resources) (a : Option String) : Bool :=
  let aliases : List String := rs.entries.filterMap (fun r => r.aliasAttr)
  1 < (aliases.countP (fun s => a = some s))

/-- `ResourceCollection.__contains__`: membership checks only the
`(language, prefix)` key. -/
def memCollection (c : ResourceCollection) (item : Resources) : Bool :=
  c.groups.any fun g => g.language = item.language && g.prefixAttr = item.prefixAttr

/-- The `enumerate` scan of `ResourceCollection.index`: index of the first
group whose `(language, prefix)` key matches. -/
def findKeyIdx (language prefixA : Option String) : List Resources → Option Nat
  | [] => none
  | g :: gs =>
    if g.language = language && g.prefixAttr = prefixA then some 0
    else (findKeyIdx language prefixA gs).map (· + 1)

/-- `ResourceCollection.index` (with default `start`/`end`): index of the
first group whose `(language, prefix)` key matches; `none` models the
`ValueError` raised when no group matches. -/
def indexCollection (c : ResourceCollection) (item : Resources) : Option Nat :=
  findKeyIdx item.language item.prefixAttr c.groups

/-- `ResourceCollection.clear`: empty the group list; keep the file name and
mark dirty when `clear_file_name` is false, otherwise full reset. -/
def clearCollection (c : ResourceCollection) (clear_file_name : Bool) : ResourceCollection :=
  if clear_file_name then ⟨[], none, false⟩ else ⟨[], c.file_name, true⟩

/-- `ResourceCollection.set_dirty`. -/
def set_dirty (c : ResourceCollection) (d : Bool) : ResourceCollection :=
  { c with dirty := d }

/-- `ResourceCollection.set_file_name`: assigns the name and always sets the
dirty flag. -/
def set_file_name (c : ResourceCollection) (fn : String) : ResourceCollection :=
  { c with file_name := some fn, dirty := true }

/-- `ResourceCollection.remove`: returns `False` when no group with the
argument's key is present, otherwise only sets the dirty flag; the group
list itself is never modified by this method. -/
def removeResources (c : ResourceCollection) (rs : Resources) :
    ResourceCollection × Bool :=
  if memCollection c rs then ({ c with dirty := true }, true) else (c, false)

/-- `l.set i a` restricted to give back `l` when `i` is out of range is what
`List.set` already does; `listModify` applies `f` at index `i`. -/
def listModify (l : List α) (i : Nat) (f : α → α) : List α :=
  match l[i]? with
  | some a => l.set i (f a)
  | none => l

/-- Python tuple-swap `c[j], c[i] = c[i], c[j]`. -/
def listSwap (l : List α) (j i : Nat) : List α :=
  match l[i]?, l[j]? with
  | some a, some b => (l.set j a).set i b
  | _, _ => l

/-- `QrcEditor.edit_move_left`: swaps `collection[index - 1]` and
`collection[index]` (Python negative indexing: for `index = 0` the partner
is the LAST group) and sets the dirty flag. -/
def edit_move_left (c : ResourceCollection) (index : Nat) : ResourceCollection :=
  let j := if index = 0 then c.groups.length - 1 else index - 1
  { c with groups := listSwap c.groups j index, dirty := true }

/-- The enablement guard from `QrcEditor.update_ui`: the move-left action is
enabled iff `len(collection) > 1` and the current tab index is `> 0`. -/
def moveLeftEnabled (c : ResourceCollection) (index : Nat) : Bool :=
  1 < c.groups.length && 0 < index

/-- `TabDlg.accept` in edit mode (`self.resources is not None`):
`selfIndex` is the dialog's `self.index` (the index of the edited group),
`language`/`prefixA` the chosen tags, `merge` the reply to the merge
question.  When a group with the new key already exists and merge is
accepted, the matched group is extended with the edited group's entries and
the edited group is deleted; when no group matches, the edited group is
retagged in place. -/
def tabAcceptEdit (c : ResourceCollection) (selfIndex : Nat)
    (language prefixA : Option String) (merge : Bool) : ResourceCollection :=
  let probe : Resources := ⟨language, prefixA, []⟩
  if memCollection c probe then
    match indexCollection c probe with
    | some index =>
      if merge then
        let src := (c.groups[selfIndex]?).getD ⟨none, none, []⟩
        let groups1 := listModify c.groups index
          (fun g => { g with entries := g.entries ++ src.entries })
        { c with dirty := true, groups := groups1.eraseIdx selfIndex }
      else c
    | none => c
  else
    { c with
      dirty := true
      groups := listModify c.groups selfIndex
        (fun g => { g with language := language, prefixAttr := prefixA }) }

/-- `TabDlg.accept` in add mode (`self.resources is None`): a fresh empty
group with the chosen tags is inserted at `insPos` unless a group with the
same key already exists, in which case nothing is modified. -/
def tabAcceptAdd (c : ResourceCollection) (insPos : Nat)
    (language prefixA : Option String) : ResourceCollection :=
  let probe : Resources := ⟨language, prefixA, []⟩
  if memCollection c probe then c
  else { c with dirty := true, groups := c.groups.insertIdx insPos probe }

/-! ### Clipboard codec (`QrcEditor.edit_copy` / `QrcEditor.edit_paste`) -/

/-- Python whitespace characters stripped by `str.strip()` (ASCII ones). -/
def pySpace (c : Char) : Bool :=
  c = ' ' || c = '\t' || c = '\n' || c = '\r' || c = '\x0b' || c = '\x0c'

/-- `str.strip()`. -/
def pyStrip (cs : List Char) : List Char :=
  ((cs.dropWhile pySpace).reverse.dropWhile pySpace).reverse

/-- Python `str.split(sep)` for a single-character separator: keeps empty
fields and yields `[""]` on the empty string. -/
def splitChar (sep : Char) : List Char → List (List Char)
  | [] => [[]]
  | c :: cs =>
    let r := splitChar sep cs
    if c = sep then [] :: r
    else
      match r with
      | h :: t => (c :: h) :: t
      | [] => [[c]]

/-- POSIX `os.path.dirname`: keep the prefix up to and including the last
`/`, then strip the trailing slashes unless the prefix is empty or consists
only of slashes (so `"a/b/c.qrc"` → `"a/b"`, `"a//b"` → `"a"`, `"/x"` →
`"/"`, `"c.qrc"` → `""`). -/
def pyDirname (s : String) : String :=
  let head := (s.data.reverse.dropWhile (fun c => c ≠ '/')).reverse
  if head = [] then ""
  else if head.all (fun c => c = '/') then ⟨head⟩
  else ⟨(head.reverse.dropWhile (fun c => c = '/')).reverse⟩

/-- POSIX `os.path.basename`: everything after the last `/`. -/
def pyBasename (s : String) : String :=
  ⟨(s.data.reverse.takeWhile (fun c => c ≠ '/')).reverse⟩

/-- One clipboard line from `QrcEditor.edit_copy`:
`"{0}\t{1}".format(alias, file)` when the alias is not `None`, otherwise the
raw file value. -/
def copyLine (r : Resource) : String :=
  if r.aliasAttr ≠ none then pyFormat r.aliasAttr ++ "\t" ++ pyFormat r.file
  else pyFormat r.file

/-- `QrcEditor.edit_copy` restricted to its text construction: one line per
selected entry, in order, each terminated by `"\n"`. -/
def editCopyText : List Resource → String
  | [] => ""
  | r :: rs => copyLine r ++ "\n" ++ editCopyText rs

/-- One pasted line from `QrcEditor.edit_paste`: split on `"\t"`; a single
field gives `Resource(file)` (so alias `''`, with the `file:///` prefix
special case dropping `len("file:///") + len(dirname(collection file))`
characters), two or more fields give `Resource(data[1], data[0])`. -/
def pasteLine (collectionFile : String) (line : List Char) : Resource :=
  match splitChar '\t' line with
  | [f] =>
    let fstr : String := ⟨f⟩
    if fstr.startsWith "file:///" then
      ⟨some ⟨f.drop ("file:///".length + (pyDirname collectionFile).length)⟩, some ""⟩
    else ⟨some fstr, some ""⟩
  | f0 :: f1 :: _ => ⟨some ⟨f1⟩, some ⟨f0⟩⟩
  | [] => ⟨some "", some ""⟩

/-- `QrcEditor.edit_paste` restricted to the entries it builds from the
clipboard text: `text.strip().split("\n")`, one entry per line, in order. -/
def editPasteEntries (collectionFile : String) (text : String) : List Resource :=
  (splitChar '\n' (pyStrip text.data)).map (pasteLine collectionFile)

/-! ### Python rich comparison of `Resource` (`Resource.__lt__` via
`key() = [alias, file]`, Python list lexicographic comparison).  Comparing
`None` with a `str` by `<` raises `TypeError`, modelled as `Except.error`. -/

/-- Code-point comparison of char lists, Python `str` `<`. -/
def charListLt : List Char → List Char → Bool
  | _, [] => false
  | [], _ :: _ => true
  | a :: as_, b :: bs => a < b || (a = b && charListLt as_ bs)

/-- Python `<` on `str`-or-`None` operands: defined only when both are
strings (`None < None` also raises `TypeError`). -/
def pyLtOpt : Option String → Option String → Except Unit Bool
  | some a, some b => .ok (charListLt a.data b.data)
  | _, _ => .error ()

/-- Python list `<` on the two-element keys `[alias, file]`: first positions
are compared with `==` (total), and `<` is only invoked on the first
differing position; equal lists of equal length are not `<`. -/
def resourceLt (r s : Resource) : Except Unit Bool :=
  if r.aliasAttr = s.aliasAttr then
    if r.file = s.file then .ok false
    else pyLtOpt r.file s.file
  else pyLtOpt r.aliasAttr s.aliasAttr

/-! ### The exact text written by `ResourceCollection.save`
(no XML escaping is applied anywhere by the code). -/

/-- The `<qresource ...>` line: `lang` is emitted when the language is not
`None` (one leading space), `prefix` when the prefix is not `None` (two
leading spaces, as in the source format string). -/
def qresourceOpenTag (g : Resources) : String :=
  "    <qresource"
    ++ (match g.language with
        | some l => " lang=\"" ++ l ++ "\""
        | none => "")
    ++ (match g.prefixAttr with
        | some p => "  prefix=\"" ++ p ++ "\""
        | none => "")
    ++ ">\n"

/-- One `<file>` line: the `alias` attribute is emitted iff the alias is
truthy (not `None` and not `''`); the path is written verbatim. -/
def fileLine (r : Resource) : String :=
  if pyTruthy r.aliasAttr then
    "        <file alias=\"" ++ pyFormat r.aliasAttr ++ "\">" ++ pyFormat r.file ++ "</file>\n"
  else
    "        <file>" ++ pyFormat r.file ++ "</file>\n"

def entriesText : List Resource → String
  | [] => ""
  | r :: rs => fileLine r ++ entriesText rs

def groupText (g : Resources) : String :=
  qresourceOpenTag g ++ entriesText g.entries ++ "    </qresource>\n"

def groupsText : List Resources → String
  | [] => ""
  | g :: gs => groupText g ++ groupsText gs

/-- The whole file written by `save`. -/
def savedText (gs : List Resources) : String :=
  "<!DOCTYPE RCC><RCC version=\"1.0\">\n" ++ groupsText gs ++ "</RCC>"

/-- Total number of entries, the `count` reported by `save`/`load`. -/
def countEntries (gs : List Resources) : Nat :=
  (gs.map (fun g => g.entries.length)).sum

/-- `ResourceCollection.save`: `file_name` rebinds the backing path first
when non-empty (Python truthiness of the argument).  `open` failures
(unwritable path, or no path at all) raise uncaught exceptions, modelled as
`Except.error` carrying the in-memory state at raise time; on success the
file content is the exact `savedText`, the dirty flag is reset and a count
message is returned. -/
def saveAt (writable : String → Bool) (c1 : ResourceCollection) :
    Except ResourceCollection (ResourceCollection × String × String) :=
  match c1.file_name with
  | none => .error c1
  | some path =>
    if writable path then
      .ok ({ c1 with dirty := false }, savedText c1.groups,
        "Saved " ++ toString (countEntries c1.groups) ++ " resources to " ++ pyBasename path)
    else .error c1

def save (writable : String → Bool) (c : ResourceCollection) (file_name : String) :
    Except ResourceCollection (ResourceCollection × String × String) :=
  saveAt writable { c with file_name := if file_name ≠ "" then some file_name else c.file_name }

/-! ### A model of `xml.etree.ElementTree.parse`

The parser accepts the fragment of XML that this program's files exercise:
an optional `<!...>`/`<?...?>` prolog, one root element, nested elements
with double- or single-quoted attributes, character data with the five
standard entities and decimal `&#N;` references.  Character data may not
contain a bare `&` or `<`, the sequence `]]>`, or an XML-illegal character
(U+0000–U+0008, U+000B, U+000C, U+000E–U+001F, U+FFFE, U+FFFF); attribute
values may not contain `<`, the closing quote, or an XML-illegal character;
mismatched or unterminated tags and content outside the root element
(other than whitespace) are rejected — these are exactly the conditions
under which `ElementTree` raises `ParseError`.  An element with
empty character data gets `text = none` (ElementTree's `None`), and only
the text between the start tag and the first child is kept (tails are
dropped, the program never reads them). -/

structure XElem where
  name : String
  attrs : List (String × String)
  text : Option String
  children : List XElem

/-- Token stream produced by the tokenizer: start tags, end tags and runs
of character data (entity references already decoded). -/
inductive XTok where
  | topen (name : String) (attrs : List (String × String))
  | tclose (name : String)
  | chars (s : String)

/-- XML name characters (enough for this dialect). -/
def nameChar (c : Char) : Bool :=
  c.isAlphanum || c = '_' || c = '-' || c = '.' || c = ':'

def xmlWs (c : Char) : Bool :=
  c = ' ' || c = '\t' || c = '\n' || c = '\r'

/-- The XML 1.0 `Char` production restricted to Lean `Char` (which already
excludes surrogates): tab, LF, CR, and anything from U+0020 up except the
non-characters U+FFFE/U+FFFF.  expat raises `ParseError` on anything else
(e.g. U+0000–U+0008, U+000B, U+000C, U+000E–U+001F) in character data and
in attribute values alike. -/
def xmlLegalChar (c : Char) : Bool :=
  c = '\t' || c = '\n' || c = '\r'
    || (0x20 ≤ c.toNat && c.toNat ≠ 0xFFFE && c.toNat ≠ 0xFFFF)

/-- Does the buffer end in `]]`?  (Used to detect the forbidden `]]>`
sequence in character data, which expat rejects.) -/
def endsCd (buf : List Char) : Bool :=
  match buf.reverse with
  | c1 :: c2 :: _ => c1 = ']' && c2 = ']'
  | _ => false

/-- Does the list start with `]>`? -/
def startsBrGt : List Char → Bool
  | c1 :: c2 :: _ => c1 = ']' && c2 = '>'
  | _ => false

/-- Does the list contain the forbidden character-data sequence `]]>`? -/
def hasCdEnd : List Char → Bool
  | [] => false
  | c :: cs => (c = ']' && startsBrGt cs) || hasCdEnd cs

/-- Decode one entity reference body (between `&` and `;`). -/
def decodeEnt (e : List Char) : Option Char :=
  if e = "amp".data then some '&'
  else if e = "lt".data then some '<'
  else if e = "gt".data then some '>'
  else if e = "quot".data then some '"'
  else if e = "apos".data then some '\''
  else
    match e with
    | '#' :: ds =>
      if ds ≠ [] && ds.all Char.isDigit then
        let n := ds.foldl (fun acc d => acc * 10 + (d.toNat - 48)) 0
        if n.isValidChar then some (Char.ofNat n) else none
      else none
    | _ => none

/-- Tokenizer mode (one state of the character-level machine). -/
inductive TkMode where
  /-- collecting character data -/
  | txt (buf : List Char)
  /-- inside `&...;` in character data -/
  | ent (buf : List Char) (ebuf : List Char)
  /-- just saw `<` -/
  | lt
  /-- reading an element name -/
  | tagName (nm : List Char)
  /-- inside a start tag, between attributes -/
  | tagWs (nm : String) (attrs : List (String × String))
  /-- reading an attribute name -/
  | attrName (nm : String) (attrs : List (String × String)) (anm : List Char)
  /-- saw `=`, awaiting the opening quote -/
  | attrEq (nm : String) (attrs : List (String × String)) (anm : String)
  /-- inside a quoted attribute value (`q` is the quote character) -/
  | attrVal (nm : String) (attrs : List (String × String)) (anm : String)
      (q : Char) (vbuf : List Char)
  /-- inside `&...;` in an attribute value -/
  | attrValEnt (nm : String) (attrs : List (String × String)) (anm : String)
      (q : Char) (vbuf : List Char) (ebuf : List Char)
  /-- saw `/` in a start tag, awaiting `>` -/
  | slash (nm : String) (attrs : List (String × String))
  /-- inside `</...>` -/
  | ctag (buf : List Char)
  /-- inside `<!...>` (doctype; skipped) -/
  | bang
  /-- inside `<?...?>` (processing instruction; skipped) -/
  | quest

structure TkSt where
  toks : List XTok
  mode : TkMode

/-- Flush pending character data as a token (empty runs produce no token,
so empty element text becomes `none` downstream). -/
def flushTxt (toks : List XTok) (buf : List Char) : List XTok :=
  if buf = [] then toks else toks ++ [.chars ⟨buf⟩]

/-- One step of the tokenizer; `none` models `ParseError`. -/
def tkStep (st : TkSt) (c : Char) : Option TkSt :=
  match st.mode with
  | .txt buf =>
    if c = '<' then some ⟨flushTxt st.toks buf, .lt⟩
    else if c = '&' then some ⟨st.toks, .ent buf []⟩
    else if c = '>' && endsCd buf then none
    else if xmlLegalChar c then some ⟨st.toks, .txt (buf ++ [c])⟩
    else none
  | .ent buf ebuf =>
    if c = ';' then
      match decodeEnt ebuf with
      | some ch => some ⟨st.toks, .txt (buf ++ [ch])⟩
      | none => none
    else if nameChar c || c = '#' then some ⟨st.toks, .ent buf (ebuf ++ [c])⟩
    else none
  | .lt =>
    if c = '!' then some ⟨st.toks, .bang⟩
    else if c = '?' then some ⟨st.toks, .quest⟩
    else if c = '/' then some ⟨st.toks, .ctag []⟩
    else if nameChar c then some ⟨st.toks, .tagName [c]⟩
    else none
  | .tagName nm =>
    if nameChar c then some ⟨st.toks, .tagName (nm ++ [c])⟩
    else if xmlWs c then some ⟨st.toks, .tagWs ⟨nm⟩ []⟩
    else if c = '>' then some ⟨st.toks ++ [.topen ⟨nm⟩ []], .txt []⟩
    else if c = '/' then some ⟨st.toks, .slash ⟨nm⟩ []⟩
    else none
  | .tagWs nm attrs =>
    if xmlWs c then some ⟨st.toks, .tagWs nm attrs⟩
    else if c = '>' then some ⟨st.toks ++ [.topen nm attrs], .txt []⟩
    else if c = '/' then some ⟨st.toks, .slash nm attrs⟩
    else if nameChar c then some ⟨st.toks, .attrName nm attrs [c]⟩
    else none
  | .attrName nm attrs anm =>
    if nameChar c then some ⟨st.toks, .attrName nm attrs (anm ++ [c])⟩
    else if c = '=' then some ⟨st.toks, .attrEq nm attrs ⟨anm⟩⟩
    else none
  | .attrEq nm attrs anm =>
    if c = '"' || c = '\'' then some ⟨st.toks, .attrVal nm attrs anm c []⟩
    else none
  | .attrVal nm attrs anm q vbuf =>
    if c = q then some ⟨st.toks, .tagWs nm (attrs ++ [(anm, ⟨vbuf⟩)])⟩
    else if c = '&' then some ⟨st.toks, .attrValEnt nm attrs anm q vbuf []⟩
    else if c = '<' then none
    else if xmlLegalChar c then some ⟨st.toks, .attrVal nm attrs anm q (vbuf ++ [c])⟩
    else none
  | .attrValEnt nm attrs anm q vbuf ebuf =>
    if c = ';' then
      match decodeEnt ebuf with
      | some ch => some ⟨st.toks, .attrVal nm attrs anm q (vbuf ++ [ch])⟩
      | none => none
    else if nameChar c || c = '#' then
      some ⟨st.toks, .attrValEnt nm attrs anm q vbuf (ebuf ++ [c])⟩
    else none
  | .slash nm attrs =>
    if c = '>' then some ⟨st.toks ++ [.topen nm attrs, .tclose nm], .txt []⟩
    else none
  | .ctag buf =>
    if c = '>' then
      let nm := buf.takeWhile nameChar
      let rest := buf.dropWhile nameChar
      if nm ≠ [] && rest.all xmlWs then some ⟨st.toks ++ [.tclose ⟨nm⟩], .txt []⟩
      else none
    else some ⟨st.toks, .ctag (buf ++ [c])⟩
  | .bang =>
    if c = '>' then some ⟨st.toks, .txt []⟩ else some ⟨st.toks, .bang⟩
  | .quest =>
    if c = '>' then some ⟨st.toks, .txt []⟩ else some ⟨st.toks, .quest⟩

/-- Run the tokenizer over a character list. -/
def tkRun : List Char → TkSt → Option TkSt
  | [], st => some st
  | c :: cs, st => (tkStep st c).bind (tkRun cs)

/-- Tokenize a whole document: the input must end in character-data mode
(anything else is an unterminated construct). -/
def tokenize (cs : List Char) : Option (List XTok) :=
  (tkRun cs ⟨[], .txt []⟩).bind fun st =>
    match st.mode with
    | .txt buf => some (flushTxt st.toks buf)
    | _ => none

/-- A frame of the tree builder: an element whose end tag is pending. -/
structure XFrame where
  name : String
  attrs : List (String × String)
  text : Option String
  children : List XElem

structure TbSt where
  stack : List XFrame
  root : Option XElem

/-- One step of the tree builder; `none` models `ParseError` (mismatched
end tag, content after the root element, ...). -/
def tbStep (st : TbSt) (tok : XTok) : Option TbSt :=
  match tok with
  | .topen n a =>
    match st.stack, st.root with
    | [], some _ => none
    | stack, _ => some ⟨⟨n, a, none, []⟩ :: stack, st.root⟩
  | .chars s =>
    match st.stack with
    | [] => if s.data.all xmlWs then some st else none
    | fr :: rest =>
      if fr.children.isEmpty && fr.text.isNone then
        some ⟨{ fr with text := some s } :: rest, st.root⟩
      else some st
  | .tclose n =>
    match st.stack with
    | [] => none
    | fr :: rest =>
      if fr.name = n then
        let elem : XElem := ⟨fr.name, fr.attrs, fr.text, fr.children⟩
        match rest with
        | [] => some ⟨[], some elem⟩
        | parent :: rest' =>
          some ⟨{ parent with children := parent.children ++ [elem] } :: rest', st.root⟩
      else none

def tbRun : List XTok → TbSt → Option TbSt
  | [], st => some st
  | t :: ts, st => (tbStep st t).bind (tbRun ts)

/-- Build the document tree from the token stream. -/
def treeBuild (toks : List XTok) : Option XElem :=
  (tbRun toks ⟨[], none⟩).bind fun st =>
    match st.stack, st.root with
    | [], some r => some r
    | _, _ => none

/-- `ElementTree.parse` on the given file content: `none` models
`ParseError`. -/
def parseDoc (content : String) : Option XElem :=
  (tokenize content.data).bind treeBuild

/-- `child.attrib[k]` lookup with absence as `none`. -/
def lookupAttr (attrs : List (String × String)) (k : String) : Option String :=
  (attrs.find? (fun p => p.1 = k)).map (fun p => p.2)

/-- The group built by the `load` loop from one child of the root. -/
def childToGroup (child : XElem) : Resources :=
  { language := lookupAttr child.attrs "lang"
    prefixAttr := lookupAttr child.attrs "prefix"
    entries := child.children.map fun r => { file := r.text, aliasAttr := lookupAttr r.attrs "alias" } }

/-- `ResourceCollection.load`: rebinds the path when the argument is
truthy, then `clear(False)` (groups emptied, dirty set) happens BEFORE the
parse attempt.  A file that cannot be read raises `IOError`/`OSError`,
which the code catches, returning `(False, message)`; a readable but
ill-formed file raises `ElementTree.ParseError`, which is NOT in the
`except` clause and escapes (modelled as `Except.error` carrying the
cleared state); on success the groups are rebuilt from the document and the
dirty flag is reset.  The OS error text interpolated into the failure
message is abstracted by the path. -/
def loadAt (fs : String → Option String) (fn : Option String) :
    Except ResourceCollection (ResourceCollection × Bool × String) :=
  match fn with
  | none => .error ⟨[], none, true⟩
  | some path =>
    match fs path with
    | none => .ok (⟨[], some path, true⟩, false, "Failed to load " ++ path)
    | some content =>
      match parseDoc content with
      | none => .error ⟨[], some path, true⟩
      | some root =>
        .ok (⟨root.children.map childToGroup, some path, false⟩, true,
          "Loaded " ++ toString (countEntries (root.children.map childToGroup))
            ++ " resources from " ++ pyBasename path)

def load (fs : String → Option String) (c : ResourceCollection) (file_name : String) :
    Except ResourceCollection (ResourceCollection × Bool × String) :=
  loadAt fs (if file_name ≠ "" then some file_name else c.file_name)

/-! ### XML-benign inputs

`save` escapes nothing, so the save → load round trip can only be stated
for collections whose strings do not collide with XML syntax.  Character
data must avoid `<` and `&` (which make the output ill-formed), the
sequence `]]>` and XML-illegal characters (both raise `ParseError`), and
`\r` (which real XML parsers normalise away); attribute values must
additionally avoid the closing quote, XML-illegal characters, and
`\n`/`\t` (normalised to spaces by attribute value normalisation).  An
entry's path must be a non-empty string (`<file></file>` loads back as
`None`), and its alias must be `None` or non-empty (a `''` alias is saved
without the attribute and loads back as `None`). -/

def textCharOk (c : Char) : Bool :=
  c ≠ '<' && c ≠ '&' && c ≠ '\r' && xmlLegalChar c

def attrCharOk (c : Char) : Bool :=
  c ≠ '"' && c ≠ '<' && c ≠ '&' && c ≠ '\n' && c ≠ '\t' && c ≠ '\r' && xmlLegalChar c

def benignTextStr (s : String) : Bool :=
  s.data.all textCharOk && !hasCdEnd s.data

def benignAttrStr (s : String) : Bool :=
  s.data.all attrCharOk

def benignOptAttr : Option String → Bool
  | none => true
  | some v => benignAttrStr v

def benignEntry (r : Resource) : Bool :=
  (match r.file with
   | some f => f ≠ "" && benignTextStr f
   | none => false) &&
  (match r.aliasAttr with
   | none => true
   | some a => a ≠ "" && benignAttrStr a)

def benignGroup (g : Resources) : Bool :=
  benignOptAttr g.language && benignOptAttr g.prefixAttr && g.entries.all benignEntry

def benignGroups (gs : List Resources) : Bool :=
  gs.all benignGroup

/-! ### The token stream and document tree that `parseDoc` recovers from
`savedText` (benign inputs). -/

/-- The attribute list of the written `<qresource>` tag. -/
def gAttrs (g : Resources) : List (String × String) :=
  (match g.language with
   | some l => [("lang", l)]
   | none => []) ++
  (match g.prefixAttr with
   | some p => [("prefix", p)]
   | none => [])

/-- The attribute list of the written `<file>` tag. -/
def aliasAttrs (r : Resource) : List (String × String) :=
  if pyTruthy r.aliasAttr then [("alias", pyFormat r.aliasAttr)] else []

def entryToks (r : Resource) : List XTok :=
  [.chars "\n        ", .topen "file" (aliasAttrs r), .chars (pyFormat r.file), .tclose "file"]

def entriesToks : List Resource → List XTok
  | [] => []
  | r :: rs => entryToks r ++ entriesToks rs

def groupToks (g : Resources) : List XTok :=
  [.chars "\n    ", .topen "qresource" (gAttrs g)] ++ entriesToks g.entries
    ++ [.chars "\n    ", .tclose "qresource"]

def groupsToks : List Resources → List XTok
  | [] => []
  | g :: gs => groupToks g ++ groupsToks gs

def docToks (gs : List Resources) : List XTok :=
  [.topen "RCC" [("version", "1.0")]] ++ groupsToks gs ++ [.chars "\n", .tclose "RCC"]

/-- The parsed `<file>` element of one entry. -/
def entryElem (r : Resource) : XElem :=
  ⟨"file", aliasAttrs r, some (pyFormat r.file), []⟩

/-- The parsed `<qresource>` element of one group (its `text` is the
indentation whitespace; `none` never occurs because the tag is always
followed by a newline). -/
def groupElem (g : Resources) : XElem :=
  ⟨"qresource", gAttrs g,
    if g.entries.isEmpty then some "\n    " else some "\n        ",
    g.entries.map entryElem⟩

/-- The parsed root element of a saved file. -/
def rccElem (gs : List Resources) : XElem :=
  ⟨"RCC", [("version", "1.0")],
    if gs.isEmpty then some "\n" else some "\n    ",
    gs.map groupElem⟩

/-! ## Theorems -/

theorem getElem?_some_lt {l : List α} {i : Nat} {a : α} (h : l[i]? = some a) :
    i < l.length := by
  by_contra hc
  rw [List.getElem?_eq_none (Nat.le_of_not_lt hc)] at h
  exact Option.noConfusion h

theorem getElem?_set' (l : List α) (i j : Nat) (a : α) :
    (l.set i a)[j]? = if i = j ∧ j < l.length then some a else l[j]? := by
  induction l generalizing i j with
  | nil => simp
  | cons x xs ih =>
    cases i with
    | zero =>
      cases j with
      | zero => simp
      | succ j => simp
    | succ i =>
      cases j with
      | zero => simp
      | succ j =>
        rw [show (x :: xs).set (i + 1) a = x :: xs.set i a from rfl,
          List.getElem?_cons_succ, ih]
        simp [Nat.succ_lt_succ_iff]

theorem getElem?_eraseIdx' (l : List α) (i j : Nat) :
    (l.eraseIdx i)[j]? = if j < i then l[j]? else l[j + 1]? := by
  induction l generalizing i j with
  | nil => simp [List.eraseIdx]
  | cons x xs ih =>
    cases i with
    | zero => simp
    | succ i =>
      cases j with
      | zero => simp
      | succ j =>
        rw [show (x :: xs).eraseIdx (i + 1) = x :: xs.eraseIdx i from rfl,
          List.getElem?_cons_succ, ih]
        simp [Nat.succ_lt_succ_iff]

theorem length_eraseIdx' (l : List α) (i : Nat) :
    (l.eraseIdx i).length = if i < l.length then l.length - 1 else l.length := by
  induction l generalizing i with
  | nil => simp [List.eraseIdx]
  | cons x xs ih =>
    cases i with
    | zero => simp
    | succ i =>
      show (xs.eraseIdx i).length + 1 = _
      rw [ih]
      by_cases h : i < xs.length
      · simp [h, Nat.succ_lt_succ_iff]
        omega
      · simp [h, Nat.succ_lt_succ_iff]

theorem getElem?_listModify (l : List α) (i j : Nat) (f : α → α) :
    (listModify l i f)[j]? = if i = j then (l[j]?).map f else l[j]? := by
  unfold listModify
  cases h : l[i]? with
  | none =>
    by_cases hij : i = j
    · subst hij; simp [h]
    · simp [hij]
  | some a =>
    rw [getElem?_set']
    by_cases hij : i = j
    · subst hij
      simp [h, getElem?_some_lt h]
    · simp [hij]

/-- `findKeyIdx` finds a position strictly inside the list. -/
theorem findKeyIdx_lt {language prefixA : Option String} :
    ∀ {gs : List Resources} {p : Nat}, findKeyIdx language prefixA gs = some p → p < gs.length := by
  intro gs
  induction gs with
  | nil => intro p h; exact Option.noConfusion h
  | cons g gs ih =>
    intro p h
    unfold findKeyIdx at h
    by_cases hk : (g.language = language && g.prefixAttr = prefixA) = true
    · rw [if_pos hk] at h
      cases h
      simp
    · rw [if_neg hk] at h
      cases hfk : findKeyIdx language prefixA gs with
      | none => rw [hfk] at h; exact Option.noConfusion h
      | some q =>
        rw [hfk] at h
        cases h
        have := ih hfk
        simp
        omega

theorem any_of_findKeyIdx {language prefixA : Option String} :
    ∀ {gs : List Resources} {p : Nat}, findKeyIdx language prefixA gs = some p →
      (gs.any fun g => g.language = language && g.prefixAttr = prefixA) = true := by
  intro gs
  induction gs with
  | nil => intro p h; exact Option.noConfusion h
  | cons g gs ih =>
    intro p h
    unfold findKeyIdx at h
    by_cases hk : (g.language = language && g.prefixAttr = prefixA) = true
    · simp [List.any_cons, hk]
    · rw [if_neg hk] at h
      cases hfk : findKeyIdx language prefixA gs with
      | none => rw [hfk] at h; exact Option.noConfusion h
      | some q => simp [List.any_cons, ih hfk]

/-- A found key index certifies membership. -/
theorem memCollection_of_findKeyIdx {c : ResourceCollection} {it : Resources} {p : Nat}
    (h : indexCollection c it = some p) : memCollection c it = true :=
  any_of_findKeyIdx h

theorem string_eq_of_data {a b : String} (h : a.data = b.data) : a = b := by
  cases a
  cases b
  exact congrArg String.mk h

/-- Counting a value among the non-`None` aliases equals counting the
entries that carry exactly that alias. -/
theorem countP_filterMap_alias (l : List Resource) (s : String) :
    ((l.filterMap fun r => r.aliasAttr).countP fun t => s = t)
      = l.countP fun r => r.aliasAttr = some s := by
  induction l with
  | nil => rfl
  | cons r l ih =>
    cases h : r.aliasAttr with
    | none => simp [List.filterMap_cons, h, List.countP_cons, ih]
    | some t =>
      by_cases hts : t = s
      · subst hts
        simp [List.filterMap_cons, h, List.countP_cons, ih]
      · simp [List.filterMap_cons, h, List.countP_cons, ih, hts, Ne.symm hts]

/-- C2 counterexample: with two entries whose alias is the empty string,
`is_duplicate("")` returns `True`, although the claim states that an empty
alias is never flagged. -/
theorem c2_counterexample :
    is_duplicate ⟨none, none, [⟨some "x", some ""⟩, ⟨some "y", some ""⟩]⟩ (some "") = true := by
  decide

/-- C2 (amended): `is_duplicate(a)` is true iff the query is a string `s`
(possibly empty) and at least two entries of the group carry alias `s`;
a `None` query is never flagged (entries with `None` alias are filtered
out), but an empty-string alias is counted like any other string. -/
theorem c2_is_duplicate_characterization (g : Resources) (a : Option String) :
    is_duplicate g a = true ↔
      ∃ s, a = some s ∧ 2 ≤ (g.entries.countP fun r => r.aliasAttr = some s) := by
  have hdef : is_duplicate g a
      = decide (1 < ((g.entries.filterMap fun r => r.aliasAttr).countP
          fun t => a = some t)) := rfl
  rw [hdef, decide_eq_true_eq]
  cases a with
  | none =>
    have hz : ((g.entries.filterMap fun r => r.aliasAttr).countP
        fun t => (none : Option String) = some t) = 0 := by
      apply List.countP_eq_zero.2
      intro t _
      simp
    rw [hz]
    constructor
    · intro h
      omega
    · rintro ⟨s, hs, -⟩
      exact Option.noConfusion hs
  | some s =>
    have hpred : (fun t => decide ((some s : Option String) = some t))
        = fun t => decide (s = t) := by
      funext t
      simp
    rw [hpred, countP_filterMap_alias]
    constructor
    · intro h
      exact ⟨s, rfl, by omega⟩
    · rintro ⟨t, ht, hc⟩
      cases ht
      omega

/-- C4 counterexample: saving to an unwritable path raises (the result is
the `error` branch, not a `(False, message)` return), and the backing path
has already been rebound from `"a.qrc"` to `"b.qrc"` when the exception is
raised. -/
theorem c4_counterexample :
    save (fun _ => false) ⟨[], some "a.qrc", false⟩ "b.qrc"
        = .error ⟨[], some "b.qrc", false⟩ ∧
      (⟨[], some "b.qrc", false⟩ : ResourceCollection).file_name
        ≠ (⟨[], some "a.qrc", false⟩ : ResourceCollection).file_name := by
  constructor
  · rfl
  · decide

/-- C4 (amended): when the target path is unwritable, `save` raises an
uncaught `OSError` past the Collection boundary (no failure indicator is
returned); the group sequence and the dirty flag are unchanged at raise
time, but the backing path has already been rebound to the non-empty
argument. -/
theorem c4_save_failure_behavior (w : String → Bool) (c : ResourceCollection)
    (p : String) (hp : p ≠ "") (hw : w p = false) :
    save w c p = .error { c with file_name := some p } := by
  unfold save saveAt
  simp [hp, hw]

theorem c4_save_failure_witness :
    save (fun _ => false) ⟨[⟨none, none, []⟩], some "a.qrc", true⟩ "b.qrc"
      = .error ⟨[⟨none, none, []⟩], some "b.qrc", true⟩ :=
  c4_save_failure_behavior (fun _ => false) ⟨[⟨none, none, []⟩], some "a.qrc", true⟩
    "b.qrc" (by decide) rfl

/-- C9 counterexample: comparing an entry with an absent alias against one
with a present alias raises `TypeError` (Python `None < str`), so the
comparison is not defined—let alone total—on mixed pairs. -/
theorem c9_counterexample :
    resourceLt ⟨some "a.png", none⟩ ⟨some "b.png", some "x"⟩ = .error () := rfl

/-- Code-point trichotomy for the Python string order. -/
theorem charListLt_trichotomy (a : List Char) :
    ∀ b : List Char, charListLt a b = true ∨ a = b ∨ charListLt b a = true := by
  induction a with
  | nil =>
    intro b
    cases b with
    | nil => right; left; rfl
    | cons c cs => left; rfl
  | cons c cs ih =>
    intro b
    cases b with
    | nil => right; right; rfl
    | cons d ds =>
      rcases lt_trichotomy c d with hlt | heq | hgt
      · left
        simp [charListLt, hlt]
      · subst heq
        rcases ih ds with h | h | h
        · left; simp [charListLt, h]
        · right; left; rw [h]
        · right; right; simp [charListLt, h]
      · right; right
        simp [charListLt, hgt]

/-- C9 (amended): the key comparison is defined (no `TypeError`) and total
whenever the two aliases are both present or both absent and the two paths
are present: one of `r < s`, `s < r` holds or the keys are equal.  Mixing
an absent alias with a present one raises `TypeError` (see the
counterexample), so `sort` is undefined on mixed entry lists and an absent
alias does not order as empty/lowest. -/
theorem c9_comparison_total (r s : Resource)
    (ha : (r.aliasAttr = none ∧ s.aliasAttr = none) ∨ (r.aliasAttr ≠ none ∧ s.aliasAttr ≠ none))
    (hf : r.file ≠ none) (hg : s.file ≠ none) :
    resourceLt r s = .ok true ∨ resourceLt s r = .ok true ∨
      (r.aliasAttr = s.aliasAttr ∧ r.file = s.file) := by
  obtain ⟨f, hfe⟩ : ∃ f, r.file = some f := Option.ne_none_iff_exists'.1 hf
  obtain ⟨g, hge⟩ : ∃ g, s.file = some g := Option.ne_none_iff_exists'.1 hg
  by_cases hae : r.aliasAttr = s.aliasAttr
  · by_cases hfg : r.file = s.file
    · right; right; exact ⟨hae, hfg⟩
    · rcases charListLt_trichotomy f.data g.data with h | h | h
      · left
        unfold resourceLt
        rw [if_pos hae, if_neg hfg, hfe, hge,
          show pyLtOpt (some f) (some g) = .ok (charListLt f.data g.data) from rfl, h]
      · exfalso
        exact hfg (by rw [hfe, hge, string_eq_of_data h])
      · right; left
        unfold resourceLt
        rw [if_pos hae.symm, if_neg (fun hh => hfg hh.symm), hge, hfe,
          show pyLtOpt (some g) (some f) = .ok (charListLt g.data f.data) from rfl, h]
  · rcases ha with ⟨h1, h2⟩ | ⟨h1, h2⟩
    · exact absurd (h1.trans h2.symm) hae
    · obtain ⟨a, hea⟩ : ∃ a, r.aliasAttr = some a := Option.ne_none_iff_exists'.1 h1
      obtain ⟨b, heb⟩ : ∃ b, s.aliasAttr = some b := Option.ne_none_iff_exists'.1 h2
      rcases charListLt_trichotomy a.data b.data with h | h | h
      · left
        unfold resourceLt
        rw [if_neg hae, hea, heb,
          show pyLtOpt (some a) (some b) = .ok (charListLt a.data b.data) from rfl, h]
      · exfalso
        apply hae
        rw [hea, heb, string_eq_of_data h]
      · right; left
        unfold resourceLt
        rw [if_neg (fun hh => hae hh.symm), heb, hea,
          show pyLtOpt (some b) (some a) = .ok (charListLt b.data a.data) from rfl, h]

theorem c9_comparison_total_witness :
    resourceLt ⟨some "a.png", some "x"⟩ ⟨some "b.png", some "x"⟩ = .ok true ∨
      resourceLt ⟨some "b.png", some "x"⟩ ⟨some "a.png", some "x"⟩ = .ok true ∨
      ((⟨some "a.png", some "x"⟩ : Resource).aliasAttr
          = (⟨some "b.png", some "x"⟩ : Resource).aliasAttr ∧
        (⟨some "a.png", some "x"⟩ : Resource).file
          = (⟨some "b.png", some "x"⟩ : Resource).file) :=
  c9_comparison_total ⟨some "a.png", some "x"⟩ ⟨some "b.png", some "x"⟩
    (Or.inr ⟨by decide, by decide⟩) (by decide) (by decide)

/-- C10 (confirmed): `ResourceCollection.remove` never deletes a group: the
group sequence is always left identical; when no group with the argument's
key is present it returns `False` and the whole state is unchanged, and
otherwise it returns `True` having only set the dirty flag. -/
theorem c10_remove_is_noop (c : ResourceCollection) (rs : Resources) :
    (removeResources c rs).1.groups = c.groups ∧
      (memCollection c rs = false → removeResources c rs = (c, false)) ∧
      (memCollection c rs = true →
        removeResources c rs = ({ c with dirty := true }, true)) := by
  unfold removeResources
  cases h : memCollection c rs <;> simp

theorem getElem?_some_of_lt {l : List α} {i : Nat} (h : i < l.length) :
    ∃ a, l[i]? = some a := by
  induction l generalizing i with
  | nil => simp at h
  | cons x xs ih =>
    cases i with
    | zero => exact ⟨x, by simp⟩
    | succ i => simpa using ih (Nat.lt_of_succ_lt_succ h)

theorem length_listModify (l : List α) (i : Nat) (f : α → α) :
    (listModify l i f).length = l.length := by
  unfold listModify
  split <;> simp

/-- C5 counterexample: decoding the claim's own text does NOT reproduce
`Entry("c.png", None)` — the `Resource` constructor defaults the alias to
`''`, not `None`; and an empty (non-`None`) alias is encoded as
`"\tpath"`, not as just `path`. -/
theorem c5_counterexample :
    editPasteEntries "" "icon\tb.png\nc.png\n"
        ≠ [⟨some "b.png", some "icon"⟩, ⟨some "c.png", none⟩] ∧
      editCopyText [⟨some "b.png", some ""⟩] ≠ "b.png\n" := by
  constructor
  · decide
  · decide

/-- C5 (amended): a line is `alias<TAB>path` whenever the alias is present
— including the empty alias — and just `path` only when the alias is
absent (`None`); encoding the two claimed entries yields exactly
`"icon\tb.png\nc.png\n"`, and decoding that text yields the same two paths
in the same order, the first with alias `"icon"` and the second with the
empty-string alias (absent decodes as `''`, not `None`). -/
theorem c5_clipboard_codec (f : Option String) (a : String) :
    copyLine ⟨f, some a⟩ = a ++ "\t" ++ pyFormat f ∧
      copyLine ⟨f, none⟩ = pyFormat f ∧
      editCopyText [⟨some "b.png", some "icon"⟩, ⟨some "c.png", none⟩]
        = "icon\tb.png\nc.png\n" ∧
      editPasteEntries "" "icon\tb.png\nc.png\n"
        = [⟨some "b.png", some "icon"⟩, ⟨some "c.png", some ""⟩] := by
  refine ⟨?_, ?_, by decide, by decide⟩
  · simp [copyLine, pyFormat]
  · simp [copyLine]

/-- C8 (confirmed): whenever the UI guard permits it (more than one group
and current index positive), moving left swaps the group with its immediate
left neighbour and touches no other position; the guard always rejects the
move at index 0 (the raw Python swap would otherwise reach `c[-1]`). -/
theorem c8_move_left_adjacent (c : ResourceCollection) (i : Nat)
    (hi : i < c.groups.length) :
    (moveLeftEnabled c i = true →
      ((edit_move_left c i).groups[i - 1]? = c.groups[i]? ∧
        (edit_move_left c i).groups[i]? = c.groups[i - 1]? ∧
        (∀ j, j ≠ i - 1 → j ≠ i → (edit_move_left c i).groups[j]? = c.groups[j]?) ∧
        (edit_move_left c i).dirty = true)) ∧
      moveLeftEnabled c 0 = false := by
  constructor
  · intro hen
    unfold moveLeftEnabled at hen
    rw [Bool.and_eq_true] at hen
    obtain ⟨h1b, h2b⟩ := hen
    have h0 : 0 < i := of_decide_eq_true h2b
    have hne : i ≠ 0 := Nat.pos_iff_ne_zero.1 h0
    obtain ⟨a, ha⟩ := getElem?_some_of_lt (l := c.groups) hi
    have hi1 : i - 1 < c.groups.length := lt_of_le_of_lt (Nat.sub_le i 1) hi
    obtain ⟨b, hb⟩ := getElem?_some_of_lt (l := c.groups) hi1
    have hswap : listSwap c.groups (i - 1) i = (c.groups.set (i - 1) a).set i b := by
      unfold listSwap
      rw [ha, hb]
    have hg : (edit_move_left c i).groups
        = listSwap c.groups (if i = 0 then c.groups.length - 1 else i - 1) i := rfl
    rw [if_neg hne] at hg
    have hii : ¬(i = i - 1) := by omega
    refine ⟨?_, ?_, ?_, rfl⟩
    · rw [hg, hswap, getElem?_set', if_neg (fun h => hii h.1), getElem?_set',
        if_pos ⟨rfl, hi1⟩, ha]
    · rw [hg, hswap, getElem?_set',
        if_pos ⟨rfl, by rw [List.length_set]; exact hi⟩, hb]
    · intro j hj1 hj2
      rw [hg, hswap, getElem?_set', if_neg (fun h => hj2 h.1.symm), getElem?_set',
        if_neg (fun h => hj1 h.1.symm)]
  · simp [moveLeftEnabled]

theorem c8_move_left_witness :
    ((edit_move_left ⟨[⟨some "e0", none, []⟩, ⟨some "e1", none, []⟩], none, false⟩ 1).groups[0]?
        = (⟨[⟨some "e0", none, []⟩, ⟨some "e1", none, []⟩], none, false⟩
            : ResourceCollection).groups[1]?) ∧
      moveLeftEnabled ⟨[⟨some "e0", none, []⟩, ⟨some "e1", none, []⟩], none, false⟩ 0 = false :=
  ⟨(((c8_move_left_adjacent ⟨[⟨some "e0", none, []⟩, ⟨some "e1", none, []⟩], none, false⟩ 1
      (by decide)).1 (by decide)).1),
    (c8_move_left_adjacent ⟨[⟨some "e0", none, []⟩, ⟨some "e1", none, []⟩], none, false⟩ 1
      (by decide)).2⟩

/-- C6 counterexample: merging the edited group at index 1 into the
existing same-key group at index 0 leaves ONE group (the concatenation, at
the survivor's position) — the collection's group count drops from 2 to 1
instead of being unchanged. -/
theorem c6_counterexample :
    (tabAcceptEdit ⟨[⟨none, some "x", [⟨some "1.png", none⟩]⟩,
          ⟨none, some "y", [⟨some "2.png", none⟩]⟩], none, false⟩
        1 none (some "x") true).groups
      = [⟨none, some "x", [⟨some "1.png", none⟩, ⟨some "2.png", none⟩]⟩] ∧
      (tabAcceptEdit ⟨[⟨none, some "x", [⟨some "1.png", none⟩]⟩,
            ⟨none, some "y", [⟨some "2.png", none⟩]⟩], none, false⟩
          1 none (some "x") true).groups.length ≠ 2 := by
  constructor
  · decide
  · decide

/-- C6 (amended): merging an edited group (at index `q`) into the existing
group `G` whose key matches (first match, at index `p ≠ q`) produces a
collection that is one group SHORTER: the survivor carries `G`'s tags and
the concatenation `G.entries ++ E.entries` (existing then new) and sits at
`G`'s original position when `q > p`, one position earlier when `q < p`;
every other group is preserved in order (shifted left past `q`); the dirty
flag is set. -/
theorem c6_merge_semantics (c : ResourceCollection) (q p : Nat)
    (language prefixA : Option String) (G E : Resources)
    (hfind : indexCollection c ⟨language, prefixA, []⟩ = some p)
    (hG : c.groups[p]? = some G) (hE : c.groups[q]? = some E) (hpq : p ≠ q) :
    (tabAcceptEdit c q language prefixA true).groups.length + 1 = c.groups.length ∧
      (tabAcceptEdit c q language prefixA true).dirty = true ∧
      (tabAcceptEdit c q language prefixA true).groups[if q < p then p - 1 else p]?
        = some ⟨G.language, G.prefixAttr, G.entries ++ E.entries⟩ ∧
      (∀ j, j ≠ p → j ≠ q →
        (tabAcceptEdit c q language prefixA true).groups[if q < j then j - 1 else j]?
          = c.groups[j]?) := by
  have hq : q < c.groups.length := getElem?_some_lt hE
  have hmem := memCollection_of_findKeyIdx (c := c) hfind
  have hres : tabAcceptEdit c q language prefixA true
      = { c with
          dirty := true
          groups := (listModify c.groups p
            (fun g => { g with entries := g.entries ++ E.entries })).eraseIdx q } := by
    unfold tabAcceptEdit
    simp only [hmem, if_true, hfind, hE, Option.getD_some]
  rw [hres]
  refine ⟨?_, rfl, ?_, ?_⟩
  · simp only [length_eraseIdx', length_listModify]
    rw [if_pos hq]
    omega
  · by_cases hqp : q < p
    · rw [if_pos hqp, getElem?_eraseIdx', if_neg (by omega),
        show p - 1 + 1 = p from by omega, getElem?_listModify, if_pos rfl, hG]
      rfl
    · rw [if_neg hqp, getElem?_eraseIdx', if_pos (by omega), getElem?_listModify,
        if_pos rfl, hG]
      rfl
  · intro j hjp hjq
    by_cases hqj : q < j
    · rw [if_pos hqj, getElem?_eraseIdx', if_neg (by omega),
        show j - 1 + 1 = j from by omega, getElem?_listModify,
        if_neg (fun h => hjp h.symm)]
    · rw [if_neg hqj, getElem?_eraseIdx', if_pos (by omega), getElem?_listModify,
        if_neg (fun h => hjp h.symm)]

theorem c6_merge_semantics_witness :
    (tabAcceptEdit ⟨[⟨none, some "x", [⟨some "1.png", none⟩]⟩,
          ⟨none, some "y", [⟨some "2.png", none⟩]⟩, ⟨some "de", none, []⟩], none, false⟩
        1 none (some "x") true).groups.length + 1 = 3 ∧
      (tabAcceptEdit ⟨[⟨none, some "x", [⟨some "1.png", none⟩]⟩,
            ⟨none, some "y", [⟨some "2.png", none⟩]⟩, ⟨some "de", none, []⟩], none, false⟩
          1 none (some "x") true).groups[0]?
        = some ⟨none, some "x", [⟨some "1.png", none⟩, ⟨some "2.png", none⟩]⟩ :=
  ⟨(c6_merge_semantics ⟨[⟨none, some "x", [⟨some "1.png", none⟩]⟩,
        ⟨none, some "y", [⟨some "2.png", none⟩]⟩, ⟨some "de", none, []⟩], none, false⟩
      1 0 none (some "x") ⟨none, some "x", [⟨some "1.png", none⟩]⟩
      ⟨none, some "y", [⟨some "2.png", none⟩]⟩
      (by decide) (by decide) (by decide) (by decide)).1,
    (c6_merge_semantics ⟨[⟨none, some "x", [⟨some "1.png", none⟩]⟩,
        ⟨none, some "y", [⟨some "2.png", none⟩]⟩, ⟨some "de", none, []⟩], none, false⟩
      1 0 none (some "x") ⟨none, some "x", [⟨some "1.png", none⟩]⟩
      ⟨none, some "y", [⟨some "2.png", none⟩]⟩
      (by decide) (by decide) (by decide) (by decide)).2.2.1⟩

/-- C3 counterexample: a readable but ill-formed file makes `load` raise
`ElementTree.ParseError` past the Collection boundary (the `except` clause
catches only `IOError`/`OSError`); the collection is left cleared with its
file name rebound and the dirty flag set — no `(False, message)` pair is
returned. -/
theorem c3_counterexample :
    load (fun _ => some "<RCC") ⟨[⟨none, none, []⟩], some "x.qrc", false⟩ "f.qrc"
      = .error ⟨[], some "f.qrc", true⟩ := rfl

/-- C3 (amended): `load` clears the collection (keeping the target path,
dirty set) BEFORE the parse attempt; a file that cannot be read is caught
and reported as `(False, message)` on the cleared collection, but a
readable ill-formed file raises `ParseError`, which escapes the Collection
boundary (still leaving the collection cleared). -/
theorem c3_load_failure_behavior (fs : String → Option String) (c : ResourceCollection)
    (p : String) (hp : p ≠ "") :
    (fs p = none →
      load fs c p = .ok (⟨[], some p, true⟩, false, "Failed to load " ++ p)) ∧
      (∀ content, fs p = some content → parseDoc content = none →
        load fs c p = .error ⟨[], some p, true⟩) := by
  constructor
  · intro hio
    unfold load loadAt
    simp [hp, hio]
  · intro content hcontent hparse
    unfold load loadAt
    simp [hp, hcontent, hparse]

theorem c3_load_failure_witness :
    load (fun _ => none) ⟨[⟨none, none, []⟩], some "old.qrc", false⟩ "p.qrc"
        = .ok (⟨[], some "p.qrc", true⟩, false, "Failed to load " ++ "p.qrc") ∧
      load (fun _ => some "<bad") ⟨[], none, false⟩ "p.qrc"
        = .error ⟨[], some "p.qrc", true⟩ :=
  ⟨(c3_load_failure_behavior (fun _ => none) ⟨[⟨none, none, []⟩], some "old.qrc", false⟩
      "p.qrc" (by decide)).1 rfl,
    (c3_load_failure_behavior (fun _ => some "<bad") ⟨[], none, false⟩
      "p.qrc" (by decide)).2 "<bad" rfl rfl⟩

/-- C7 (confirmed): the dirty flag is false immediately after a successful
load and after a successful save; any mutation that goes through the
dirty-setter — `set_dirty(True)` as called by every editor mutation, the
move operations, a remove of a present group — leaves it true, and
`set_file_name` always marks the collection dirty. -/
theorem c7_dirty_flag :
    (∀ fs c fn st m, load fs c fn = .ok (st, true, m) → st.dirty = false) ∧
      (∀ w c fn st content m, save w c fn = .ok (st, content, m) → st.dirty = false) ∧
      (∀ c, (set_dirty c true).dirty = true) ∧
      (∀ c fn, (set_file_name c fn).dirty = true) ∧
      (∀ c i, (edit_move_left c i).dirty = true) ∧
      (∀ c rs, memCollection c rs = true → (removeResources c rs).1.dirty = true) := by
  refine ⟨?_, ?_, fun c => rfl, fun c fn => rfl, fun c i => rfl, ?_⟩
  · intro fs c fn st m h
    unfold load loadAt at h
    repeat' split at h
    any_goals exact Except.noConfusion h
    all_goals simp only [Except.ok.injEq, Prod.mk.injEq] at h
    · exact Bool.noConfusion h.2.1
    · rw [← h.1]
  · intro w c fn st content m h
    unfold save saveAt at h
    repeat' split at h
    any_goals exact Except.noConfusion h
    all_goals simp only [Except.ok.injEq, Prod.mk.injEq] at h
    all_goals rw [← h.1]
  · intro c rs hmem
    unfold removeResources
    simp [hmem]

theorem c7_dirty_flag_witness :
    (⟨[⟨none, none, [⟨some "a.png", none⟩]⟩], some "w.qrc", false⟩
        : ResourceCollection).dirty = false ∧
      (⟨[], some "w.qrc", false⟩ : ResourceCollection).dirty = false ∧
      (set_dirty ⟨[], none, false⟩ true).dirty = true ∧
      (set_file_name ⟨[], none, false⟩ "u").dirty = true ∧
      (edit_move_left ⟨[⟨none, none, []⟩, ⟨some "a", none, []⟩], none, false⟩ 1).dirty = true ∧
      (removeResources ⟨[⟨none, none, []⟩], none, false⟩ ⟨none, none, []⟩).1.dirty = true :=
  ⟨c7_dirty_flag.1 (fun _ => some "<RCC><qresource><file>a.png</file></qresource></RCC>")
      ⟨[], none, false⟩ "w.qrc" ⟨[⟨none, none, [⟨some "a.png", none⟩]⟩], some "w.qrc", false⟩
      "Loaded 1 resources from w.qrc" rfl,
    c7_dirty_flag.2.1 (fun _ => true) ⟨[], some "w.qrc", true⟩ ""
      ⟨[], some "w.qrc", false⟩ (savedText []) "Saved 0 resources to w.qrc" rfl,
    c7_dirty_flag.2.2.1 ⟨[], none, false⟩,
    c7_dirty_flag.2.2.2.1 ⟨[], none, false⟩ "u",
    c7_dirty_flag.2.2.2.2.1 ⟨[⟨none, none, []⟩, ⟨some "a", none, []⟩], none, false⟩ 1,
    c7_dirty_flag.2.2.2.2.2 ⟨[⟨none, none, []⟩], none, false⟩ ⟨none, none, []⟩ (by decide)⟩

/-! ### Save → load round trip: tokenizer lemmas -/

theorem data_append (a b : String) : (a ++ b).data = a.data ++ b.data := rfl

theorem tkRun_append (a : List Char) :
    ∀ (b : List Char) (st : TkSt),
      tkRun (a ++ b) st = (tkRun a st).bind (tkRun b) := by
  induction a with
  | nil => intro b st; rfl
  | cons c cs ih =>
    intro b st
    show (tkStep st c).bind (tkRun (cs ++ b)) = ((tkStep st c).bind (tkRun cs)).bind (tkRun b)
    cases tkStep st c with
    | none => rfl
    | some st' => exact ih b st'

theorem benignText_chars {s : String} (h : benignTextStr s = true) :
    ∀ c ∈ s.data, c ≠ '<' ∧ c ≠ '&' ∧ xmlLegalChar c = true := by
  intro c hc
  unfold benignTextStr at h
  rw [Bool.and_eq_true] at h
  have hx := List.all_eq_true.1 h.1 c hc
  unfold textCharOk at hx
  simp only [Bool.and_eq_true, decide_eq_true_eq] at hx
  exact ⟨hx.1.1.1, hx.1.1.2, hx.2⟩

theorem benignText_noCd {s : String} (h : benignTextStr s = true) :
    hasCdEnd s.data = false := by
  unfold benignTextStr at h
  rw [Bool.and_eq_true] at h
  simpa using h.2

theorem benignAttr_chars {s : String} (h : benignAttrStr s = true) :
    ∀ c ∈ s.data, c ≠ '"' ∧ c ≠ '<' ∧ c ≠ '&' ∧ xmlLegalChar c = true := by
  intro c hc
  unfold benignAttrStr at h
  have hx := List.all_eq_true.1 h c hc
  unfold attrCharOk at hx
  simp only [Bool.and_eq_true, decide_eq_true_eq] at hx
  exact ⟨hx.1.1.1.1.1.1, hx.1.1.1.1.1.2, hx.1.1.1.1.2, hx.2⟩

theorem hasCdEnd_append_right (w : List Char) {l : List Char} (h : hasCdEnd l = true) :
    hasCdEnd (w ++ l) = true := by
  induction w with
  | nil => exact h
  | cons x w ih => simp [hasCdEnd, ih]

/-- A buffer ending in `]]` followed by `>` exhibits the forbidden `]]>`. -/
theorem endsCd_hasCdEnd {buf : List Char} (h : endsCd buf = true) (s' : List Char) :
    hasCdEnd (buf ++ '>' :: s') = true := by
  unfold endsCd at h
  cases hr : buf.reverse with
  | nil => rw [hr] at h; exact absurd h (by simp)
  | cons c1 r1 =>
    cases r1 with
    | nil => rw [hr] at h; exact absurd h (by simp)
    | cons c2 t =>
      rw [hr] at h
      simp only [Bool.and_eq_true, decide_eq_true_eq] at h
      obtain ⟨h1, h2⟩ := h
      subst h1
      subst h2
      have hbuf : buf = t.reverse ++ [']', ']'] := by
        have hrr := congrArg List.reverse hr
        simpa using hrr
      rw [hbuf, List.append_assoc]
      exact hasCdEnd_append_right _ (by simp [hasCdEnd, startsBrGt])

/-- XML-legal character data free of `<`, `&` and (overall) of `]]>` is
accumulated verbatim. -/
theorem tkRun_txt (s : List Char)
    (hs : ∀ c ∈ s, c ≠ '<' ∧ c ≠ '&' ∧ xmlLegalChar c = true) :
    ∀ (toks : List XTok) (buf : List Char), hasCdEnd (buf ++ s) = false →
      tkRun s ⟨toks, .txt buf⟩ = some ⟨toks, .txt (buf ++ s)⟩ := by
  induction s with
  | nil => intro toks buf _; simp [tkRun]
  | cons c cs ih =>
    intro toks buf hn
    obtain ⟨h1, h2, h3⟩ := hs c (List.mem_cons_self _ _)
    have hgt : (c = '>' && endsCd buf) = false := by
      by_cases hc : c = '>'
      · subst hc
        cases hend : endsCd buf with
        | false => simp [hend]
        | true => exact absurd ((endsCd_hasCdEnd hend cs).symm.trans hn) (by simp)
      · simp [hc]
    have hstep : tkStep ⟨toks, .txt buf⟩ c = some ⟨toks, .txt (buf ++ [c])⟩ := by
      unfold tkStep
      simp [h1, h2, h3, hgt]
    show (tkStep ⟨toks, .txt buf⟩ c).bind (tkRun cs) = _
    rw [hstep]
    show tkRun cs ⟨toks, .txt (buf ++ [c])⟩ = _
    rw [ih (fun x hx => hs x (List.mem_cons_of_mem _ hx)) toks (buf ++ [c])
      (by simpa using hn)]
    simp

/-- A double-quoted attribute value of XML-legal characters free of `"`,
`<` and `&` is accumulated verbatim. -/
theorem tkRun_attrVal (s : List Char)
    (hs : ∀ c ∈ s, c ≠ '"' ∧ c ≠ '<' ∧ c ≠ '&' ∧ xmlLegalChar c = true) :
    ∀ (toks : List XTok) (nm : String) (attrs : List (String × String))
      (anm : String) (vbuf : List Char),
      tkRun s ⟨toks, .attrVal nm attrs anm '"' vbuf⟩
        = some ⟨toks, .attrVal nm attrs anm '"' (vbuf ++ s)⟩ := by
  induction s with
  | nil => intro toks nm attrs anm vbuf; simp [tkRun]
  | cons c cs ih =>
    intro toks nm attrs anm vbuf
    obtain ⟨h1, h2, h3, h4⟩ := hs c (List.mem_cons_self _ _)
    have hstep : tkStep ⟨toks, .attrVal nm attrs anm '"' vbuf⟩ c
        = some ⟨toks, .attrVal nm attrs anm '"' (vbuf ++ [c])⟩ := by
      unfold tkStep
      simp [h1, h2, h3, h4]
    show (tkStep ⟨toks, .attrVal nm attrs anm '"' vbuf⟩ c).bind (tkRun cs) = _
    rw [hstep]
    show tkRun cs ⟨toks, .attrVal nm attrs anm '"' (vbuf ++ [c])⟩ = _
    rw [ih (fun x hx => hs x (List.mem_cons_of_mem _ hx))]
    simp

theorem tkRun_seq {a b : List Char} {st st1 st2 : TkSt}
    (h1 : tkRun a st = some st1) (h2 : tkRun b st1 = some st2) :
    tkRun (a ++ b) st = some st2 := by
  rw [tkRun_append, h1]
  exact h2

theorem data_ne_nil {f : String} (hf : f ≠ "") : f.data ≠ [] := by
  intro h
  exact hf (string_eq_of_data (by rw [h]))

/-! Single-emission tokenizer segments of the saved format (all `rfl`). -/

theorem tkSegHeader :
    tkRun ("<!DOCTYPE RCC><RCC version=\"1.0\">\n").data ⟨[], .txt []⟩
      = some ⟨[.topen "RCC" [("version", "1.0")]], .txt ['\n']⟩ := rfl

theorem tkSegQOpen (toks : List XTok) :
    tkRun ("    <qresource").data ⟨toks, .txt ['\n']⟩
      = some ⟨toks ++ [.chars "\n    "], .tagName "qresource".data⟩ := rfl

theorem tkSegLang (toks : List XTok) :
    tkRun (" lang=\"").data ⟨toks, .tagName "qresource".data⟩
      = some ⟨toks, .attrVal "qresource" [] "lang" '"' []⟩ := rfl

theorem tkSegPrefixFromName (toks : List XTok) :
    tkRun ("  prefix=\"").data ⟨toks, .tagName "qresource".data⟩
      = some ⟨toks, .attrVal "qresource" [] "prefix" '"' []⟩ := rfl

theorem tkSegPrefixFromWs (toks : List XTok) (attrs : List (String × String)) :
    tkRun ("  prefix=\"").data ⟨toks, .tagWs "qresource" attrs⟩
      = some ⟨toks, .attrVal "qresource" attrs "prefix" '"' []⟩ := rfl

theorem tkSegQuote (toks : List XTok) (nm : String) (attrs : List (String × String))
    (anm : String) (v : String) :
    tkRun ("\"").data ⟨toks, .attrVal nm attrs anm '"' v.data⟩
      = some ⟨toks, .tagWs nm (attrs ++ [(anm, v)])⟩ := rfl

theorem tkSegGtNlWs (toks : List XTok) (nm : String) (attrs : List (String × String)) :
    tkRun (">\n").data ⟨toks, .tagWs nm attrs⟩
      = some ⟨toks ++ [.topen nm attrs], .txt ['\n']⟩ := rfl

theorem tkSegGtNlName (toks : List XTok) :
    tkRun (">\n").data ⟨toks, .tagName "qresource".data⟩
      = some ⟨toks ++ [.topen "qresource" []], .txt ['\n']⟩ := rfl

theorem tkSegQClosePre (toks : List XTok) :
    tkRun ("    </qresource").data ⟨toks, .txt ['\n']⟩
      = some ⟨toks ++ [.chars "\n    "], .ctag "qresource".data⟩ := rfl

theorem tkSegQCloseEnd (toks : List XTok) :
    tkRun (">\n").data ⟨toks, .ctag "qresource".data⟩
      = some ⟨toks ++ [.tclose "qresource"], .txt ['\n']⟩ := rfl

theorem tkSegFileOpen (toks : List XTok) :
    tkRun ("        <file").data ⟨toks, .txt ['\n']⟩
      = some ⟨toks ++ [.chars "\n        "], .tagName "file".data⟩ := rfl

theorem tkSegAlias (toks : List XTok) :
    tkRun (" alias=\"").data ⟨toks, .tagName "file".data⟩
      = some ⟨toks, .attrVal "file" [] "alias" '"' []⟩ := rfl

theorem tkSegGtWs (toks : List XTok) (nm : String) (attrs : List (String × String)) :
    tkRun (">").data ⟨toks, .tagWs nm attrs⟩
      = some ⟨toks ++ [.topen nm attrs], .txt []⟩ := rfl

theorem tkSegGtFileName (toks : List XTok) :
    tkRun (">").data ⟨toks, .tagName "file".data⟩
      = some ⟨toks ++ [.topen "file" []], .txt []⟩ := rfl

theorem tkSegSlashFile (toks : List XTok) :
    tkRun ("/file>\n").data ⟨toks, .lt⟩
      = some ⟨toks ++ [.tclose "file"], .txt ['\n']⟩ := rfl

theorem tkSegEndA (toks : List XTok) :
    tkRun ("</RCC").data ⟨toks, .txt ['\n']⟩
      = some ⟨toks ++ [.chars "\n"], .ctag "RCC".data⟩ := rfl

theorem tkSegEndB (toks : List XTok) :
    tkRun (">").data ⟨toks, .ctag "RCC".data⟩
      = some ⟨toks ++ [.tclose "RCC"], .txt []⟩ := rfl

/-- Closing a `<file>` element whose (non-empty) text is `f`. -/
theorem tkSegCloseFile (toks : List XTok) (f : String) (hf : f ≠ "") :
    tkRun ("</file>\n").data ⟨toks, .txt f.data⟩
      = some ⟨(toks ++ [.chars f]) ++ [.tclose "file"], .txt ['\n']⟩ := by
  have hstep : tkStep ⟨toks, .txt f.data⟩ '<' = some ⟨flushTxt toks f.data, .lt⟩ := rfl
  have hflush : flushTxt toks f.data = toks ++ [.chars f] := by
    unfold flushTxt
    rw [if_neg (data_ne_nil hf)]
  show (tkStep ⟨toks, .txt f.data⟩ '<').bind (tkRun ("/file>\n").data) = _
  rw [hstep, hflush]
  exact tkSegSlashFile (toks ++ [.chars f])

theorem benignEntry_file {r : Resource} (hb : benignEntry r = true) :
    ∃ f, r.file = some f ∧ f ≠ "" ∧ benignTextStr f = true := by
  unfold benignEntry at hb
  cases hrf : r.file with
  | none => rw [hrf] at hb; exact absurd hb (by simp)
  | some f =>
    rw [hrf] at hb
    simp only [Bool.and_eq_true, decide_eq_true_eq] at hb
    exact ⟨f, rfl, hb.1.1, hb.1.2⟩

theorem benignEntry_alias {r : Resource} (hb : benignEntry r = true) :
    r.aliasAttr = none ∨ (∃ a, r.aliasAttr = some a ∧ a ≠ "" ∧ benignAttrStr a = true) := by
  unfold benignEntry at hb
  cases hra : r.aliasAttr with
  | none => exact Or.inl rfl
  | some a =>
    rw [hra] at hb
    simp only [Bool.and_eq_true, decide_eq_true_eq] at hb
    exact Or.inr ⟨a, rfl, hb.2.1, hb.2.2⟩

/-- Tokenizing the `<qresource ...>` start tag. -/
theorem tkRun_openTag (g : Resources) (hl : benignOptAttr g.language = true)
    (hp : benignOptAttr g.prefixAttr = true) (toks : List XTok) :
    tkRun (qresourceOpenTag g).data ⟨toks, .txt ['\n']⟩
      = some ⟨toks ++ [.chars "\n    ", .topen "qresource" (gAttrs g)], .txt ['\n']⟩ := by
  cases hlv : g.language with
  | some l =>
    have hl' : benignAttrStr l = true := by
      rw [hlv] at hl
      exact hl
    cases hpv : g.prefixAttr with
    | some p =>
      have hp' : benignAttrStr p = true := by
        rw [hpv] at hp
        exact hp
      have hdata : (qresourceOpenTag g).data
          = "    <qresource".data ++ (" lang=\"".data ++ (l.data ++ ("\"".data
            ++ ("  prefix=\"".data ++ (p.data ++ ("\"".data ++ ">\n".data)))))) := by
        unfold qresourceOpenTag
        rw [hlv, hpv]
        simp [data_append, List.append_assoc]
      rw [hdata]
      refine tkRun_seq (tkSegQOpen toks) ?_
      refine tkRun_seq (tkSegLang _) ?_
      refine tkRun_seq (tkRun_attrVal l.data (benignAttr_chars hl') _ _ _ _ _) ?_
      refine tkRun_seq (tkSegQuote _ _ _ _ l) ?_
      refine tkRun_seq (tkSegPrefixFromWs _ _) ?_
      refine tkRun_seq (tkRun_attrVal p.data (benignAttr_chars hp') _ _ _ _ _) ?_
      refine tkRun_seq (tkSegQuote _ _ _ _ p) ?_
      exact (tkSegGtNlWs _ _ _).trans (by simp [gAttrs, hlv, hpv])
    | none =>
      have hdata : (qresourceOpenTag g).data
          = "    <qresource".data ++ (" lang=\"".data ++ (l.data ++ ("\"".data
            ++ ">\n".data))) := by
        unfold qresourceOpenTag
        rw [hlv, hpv]
        simp [data_append, List.append_assoc]
      rw [hdata]
      refine tkRun_seq (tkSegQOpen toks) ?_
      refine tkRun_seq (tkSegLang _) ?_
      refine tkRun_seq (tkRun_attrVal l.data (benignAttr_chars hl') _ _ _ _ _) ?_
      refine tkRun_seq (tkSegQuote _ _ _ _ l) ?_
      exact (tkSegGtNlWs _ _ _).trans (by simp [gAttrs, hlv, hpv])
  | none =>
    cases hpv : g.prefixAttr with
    | some p =>
      have hp' : benignAttrStr p = true := by
        rw [hpv] at hp
        exact hp
      have hdata : (qresourceOpenTag g).data
          = "    <qresource".data ++ ("  prefix=\"".data ++ (p.data ++ ("\"".data
            ++ ">\n".data))) := by
        unfold qresourceOpenTag
        rw [hlv, hpv]
        simp [data_append, List.append_assoc]
      rw [hdata]
      refine tkRun_seq (tkSegQOpen toks) ?_
      refine tkRun_seq (tkSegPrefixFromName _) ?_
      refine tkRun_seq (tkRun_attrVal p.data (benignAttr_chars hp') _ _ _ _ _) ?_
      refine tkRun_seq (tkSegQuote _ _ _ _ p) ?_
      exact (tkSegGtNlWs _ _ _).trans (by simp [gAttrs, hlv, hpv])
    | none =>
      have hdata : (qresourceOpenTag g).data
          = "    <qresource".data ++ ">\n".data := by
        unfold qresourceOpenTag
        rw [hlv, hpv]
        simp [data_append, List.append_assoc]
      rw [hdata]
      refine tkRun_seq (tkSegQOpen toks) ?_
      exact (tkSegGtNlName _).trans (by simp [gAttrs, hlv, hpv])

/-- Tokenizing one `<file>` line. -/
theorem tkRun_fileLine (r : Resource) (hb : benignEntry r = true) (toks : List XTok) :
    tkRun (fileLine r).data ⟨toks, .txt ['\n']⟩
      = some ⟨toks ++ entryToks r, .txt ['\n']⟩ := by
  obtain ⟨f, hfv, hfne, hftext⟩ := benignEntry_file hb
  cases hpt : pyTruthy r.aliasAttr with
  | true =>
    rcases benignEntry_alias hb with hra | ⟨a, hra, hane, hattr⟩
    · rw [hra] at hpt
      exact absurd hpt (by simp [pyTruthy])
    · have hdata : (fileLine r).data
          = "        <file".data ++ (" alias=\"".data ++ (a.data ++ ("\"".data
            ++ (">".data ++ (f.data ++ "</file>\n".data))))) := by
        unfold fileLine
        rw [if_pos hpt, hra, hfv]
        simp [pyFormat, data_append, List.append_assoc]
      rw [hdata]
      refine tkRun_seq (tkSegFileOpen toks) ?_
      refine tkRun_seq (tkSegAlias _) ?_
      refine tkRun_seq (tkRun_attrVal a.data (benignAttr_chars hattr) _ _ _ _ _) ?_
      refine tkRun_seq (tkSegQuote _ _ _ _ a) ?_
      refine tkRun_seq (tkSegGtWs _ _ _) ?_
      refine tkRun_seq (tkRun_txt f.data (benignText_chars hftext) _ []
        (by simpa using benignText_noCd hftext)) ?_
      exact (tkSegCloseFile _ f hfne).trans
        (by simp [entryToks, aliasAttrs, pyTruthy, hane, hra, hfv, pyFormat])
  | false =>
    have hra : r.aliasAttr = none := by
      rcases benignEntry_alias hb with hra | ⟨a, hra, hane, hattr⟩
      · exact hra
      · rw [hra] at hpt
        simp [pyTruthy] at hpt
        exact absurd hpt hane
    have hdata : (fileLine r).data
        = "        <file".data ++ (">".data ++ (f.data ++ "</file>\n".data)) := by
      unfold fileLine
      rw [if_neg (by rw [hpt]; exact Bool.false_ne_true), hfv]
      simp [pyFormat, data_append, List.append_assoc]
    rw [hdata]
    refine tkRun_seq (tkSegFileOpen toks) ?_
    refine tkRun_seq (tkSegGtFileName _) ?_
    refine tkRun_seq (tkRun_txt f.data (benignText_chars hftext) _ []
      (by simpa using benignText_noCd hftext)) ?_
    exact (tkSegCloseFile _ f hfne).trans
      (by simp [entryToks, aliasAttrs, pyTruthy, hra, hfv, pyFormat])

theorem tkRun_entriesText (rs : List Resource) (hb : rs.all benignEntry = true) :
    ∀ toks : List XTok,
      tkRun (entriesText rs).data ⟨toks, .txt ['\n']⟩
        = some ⟨toks ++ entriesToks rs, .txt ['\n']⟩ := by
  induction rs with
  | nil => intro toks; simp [entriesText, entriesToks, tkRun]
  | cons r rs ih =>
    intro toks
    rw [List.all_cons, Bool.and_eq_true] at hb
    rw [show (entriesText (r :: rs)).data = (fileLine r).data ++ (entriesText rs).data from rfl]
    refine tkRun_seq (tkRun_fileLine r hb.1 toks) ?_
    exact (ih hb.2 _).trans (by simp [entriesToks, List.append_assoc])

/-- Tokenizing one whole group block. -/
theorem tkRun_groupText (g : Resources) (hb : benignGroup g = true) (toks : List XTok) :
    tkRun (groupText g).data ⟨toks, .txt ['\n']⟩
      = some ⟨toks ++ groupToks g, .txt ['\n']⟩ := by
  unfold benignGroup at hb
  simp only [Bool.and_eq_true] at hb
  have hdata : (groupText g).data
      = (qresourceOpenTag g).data ++ ((entriesText g.entries).data
        ++ ("    </qresource".data ++ ">\n".data)) := by
    unfold groupText
    simp [data_append, List.append_assoc]
  rw [hdata]
  refine tkRun_seq (tkRun_openTag g hb.1.1 hb.1.2 toks) ?_
  refine tkRun_seq (tkRun_entriesText g.entries hb.2 _) ?_
  refine tkRun_seq (tkSegQClosePre _) ?_
  exact (tkSegQCloseEnd _).trans (by simp [groupToks, List.append_assoc])

theorem tkRun_groupsText (gs : List Resources) (hb : benignGroups gs = true) :
    ∀ toks : List XTok,
      tkRun (groupsText gs).data ⟨toks, .txt ['\n']⟩
        = some ⟨toks ++ groupsToks gs, .txt ['\n']⟩ := by
  induction gs with
  | nil => intro toks; simp [groupsText, groupsToks, tkRun]
  | cons g gs ih =>
    intro toks
    unfold benignGroups at hb
    rw [List.all_cons, Bool.and_eq_true] at hb
    rw [show (groupsText (g :: gs)).data = (groupText g).data ++ (groupsText gs).data from rfl]
    refine tkRun_seq (tkRun_groupText g hb.1 toks) ?_
    exact (ih hb.2 _).trans (by simp [groupsToks, List.append_assoc])

/-- The whole saved file tokenizes to the expected token stream. -/
theorem tokenize_savedText (gs : List Resources) (hb : benignGroups gs = true) :
    tokenize (savedText gs).data = some (docToks gs) := by
  have hdata : (savedText gs).data
      = ("<!DOCTYPE RCC><RCC version=\"1.0\">\n").data ++ ((groupsText gs).data
        ++ ("</RCC".data ++ ">".data)) := by
    unfold savedText
    simp [data_append, List.append_assoc]
  have hrun : tkRun (savedText gs).data ⟨[], .txt []⟩
      = some ⟨docToks gs, .txt []⟩ := by
    rw [hdata]
    refine tkRun_seq tkSegHeader ?_
    refine tkRun_seq (tkRun_groupsText gs hb _) ?_
    refine tkRun_seq (tkSegEndA _) ?_
    exact (tkSegEndB _).trans (by simp [docToks, List.append_assoc])
  unfold tokenize
  rw [hrun]
  rfl

/-! ### Save → load round trip: tree-builder lemmas -/

theorem tbRun_append (a : List XTok) :
    ∀ (b : List XTok) (st : TbSt),
      tbRun (a ++ b) st = (tbRun a st).bind (tbRun b) := by
  induction a with
  | nil => intro b st; rfl
  | cons t ts ih =>
    intro b st
    show (tbStep st t).bind (tbRun (ts ++ b)) = ((tbStep st t).bind (tbRun ts)).bind (tbRun b)
    cases tbStep st t with
    | none => rfl
    | some st' => exact ih b st'

theorem tbRun_seq {a b : List XTok} {st st1 st2 : TbSt}
    (h1 : tbRun a st = some st1) (h2 : tbRun b st1 = some st2) :
    tbRun (a ++ b) st = some st2 := by
  rw [tbRun_append, h1]
  exact h2

/-- A leading-whitespace `chars` token updates the open frame's text only
when the frame has no children and no text yet. -/
theorem tbStep_chars (s : String) (nm : String) (a : List (String × String))
    (t : Option String) (ch : List XElem) (rest : List XFrame) (root : Option XElem) :
    tbStep ⟨⟨nm, a, t, ch⟩ :: rest, root⟩ (.chars s)
      = some ⟨⟨nm, a, if ch.isEmpty && t.isNone then some s else t, ch⟩ :: rest, root⟩ := by
  show (if (ch.isEmpty && t.isNone) = true
      then some (⟨⟨nm, a, some s, ch⟩ :: rest, root⟩ : TbSt)
      else some ⟨⟨nm, a, t, ch⟩ :: rest, root⟩)
    = some ⟨⟨nm, a, if ch.isEmpty && t.isNone then some s else t, ch⟩ :: rest, root⟩
  by_cases hct : (ch.isEmpty && t.isNone) = true
  · rw [if_pos hct, if_pos hct]
  · rw [if_neg hct, if_neg hct]

/-- Processing one entry block on top of an open parent frame. -/
theorem tbRun_entryToks (r : Resource) (nm : String) (a : List (String × String))
    (t : Option String) (ch : List XElem) (rest : List XFrame) (root : Option XElem) :
    tbRun (entryToks r) ⟨⟨nm, a, t, ch⟩ :: rest, root⟩
      = some ⟨⟨nm, a, if ch.isEmpty && t.isNone then some "\n        " else t,
          ch ++ [entryElem r]⟩ :: rest, root⟩ := by
  rw [show tbRun (entryToks r) ⟨⟨nm, a, t, ch⟩ :: rest, root⟩
      = (tbStep ⟨⟨nm, a, t, ch⟩ :: rest, root⟩ (.chars "\n        ")).bind
          (tbRun [.topen "file" (aliasAttrs r), .chars (pyFormat r.file), .tclose "file"])
      from rfl, tbStep_chars]
  rfl

/-- Processing a run of entry blocks. -/
theorem tbRun_entriesToks (rs : List Resource) :
    ∀ (nm : String) (a : List (String × String)) (t : Option String)
      (ch : List XElem) (rest : List XFrame) (root : Option XElem),
      tbRun (entriesToks rs) ⟨⟨nm, a, t, ch⟩ :: rest, root⟩
        = some ⟨⟨nm, a,
            if rs.isEmpty then t
            else if ch.isEmpty && t.isNone then some "\n        " else t,
            ch ++ rs.map entryElem⟩ :: rest, root⟩ := by
  induction rs with
  | nil => intro nm a t ch rest root; simp [entriesToks, tbRun]
  | cons r rs ih =>
    intro nm a t ch rest root
    rw [show entriesToks (r :: rs) = entryToks r ++ entriesToks rs from rfl]
    refine tbRun_seq (tbRun_entryToks r nm a t ch rest root) ?_
    rw [ih]
    have hne : (ch ++ [entryElem r]).isEmpty = false := by
      cases ch <;> rfl
    rw [hne]
    cases rs with
    | nil => simp
    | cons r2 rs2 => simp

/-- Processing one whole group block on top of an open parent frame. -/
theorem tbRun_groupToks (g : Resources) (nm : String) (a : List (String × String))
    (t : Option String) (ch : List XElem) (rest : List XFrame) (root : Option XElem) :
    tbRun (groupToks g) ⟨⟨nm, a, t, ch⟩ :: rest, root⟩
      = some ⟨⟨nm, a, if ch.isEmpty && t.isNone then some "\n    " else t,
          ch ++ [groupElem g]⟩ :: rest, root⟩ := by
  rw [show groupToks g
      = [.chars "\n    ", .topen "qresource" (gAttrs g)] ++ (entriesToks g.entries
        ++ [.chars "\n    ", .tclose "qresource"]) from by simp [groupToks]]
  have h12 : tbRun [.chars "\n    ", .topen "qresource" (gAttrs g)]
      ⟨⟨nm, a, t, ch⟩ :: rest, root⟩
      = some ⟨⟨"qresource", gAttrs g, none, []⟩
          :: ⟨nm, a, if ch.isEmpty && t.isNone then some "\n    " else t, ch⟩ :: rest, root⟩ := by
    rw [show tbRun [.chars "\n    ", .topen "qresource" (gAttrs g)]
        ⟨⟨nm, a, t, ch⟩ :: rest, root⟩
        = (tbStep ⟨⟨nm, a, t, ch⟩ :: rest, root⟩ (.chars "\n    ")).bind
            (tbRun [.topen "qresource" (gAttrs g)]) from rfl, tbStep_chars]
    rfl
  refine tbRun_seq h12 ?_
  refine tbRun_seq (tbRun_entriesToks g.entries "qresource" (gAttrs g) none [] _ root) ?_
  rw [show tbRun [.chars "\n    ", .tclose "qresource"]
      ⟨⟨"qresource", gAttrs g,
          if g.entries.isEmpty then none
          else if List.isEmpty [] && Option.isNone none then some "\n        " else none,
          [] ++ g.entries.map entryElem⟩
        :: ⟨nm, a, if ch.isEmpty && t.isNone then some "\n    " else t, ch⟩ :: rest, root⟩
      = (tbStep ⟨⟨"qresource", gAttrs g,
          if g.entries.isEmpty then none
          else if List.isEmpty [] && Option.isNone none then some "\n        " else none,
          [] ++ g.entries.map entryElem⟩
        :: ⟨nm, a, if ch.isEmpty && t.isNone then some "\n    " else t, ch⟩ :: rest, root⟩
          (.chars "\n    ")).bind (tbRun [.tclose "qresource"]) from rfl, tbStep_chars]
  cases hge : g.entries with
  | nil =>
    rw [Option.some_bind]
    unfold groupElem
    rw [hge]
    rfl
  | cons e es =>
    rw [Option.some_bind]
    unfold groupElem
    rw [hge]
    rfl

/-- Processing a run of group blocks. -/
theorem tbRun_groupsToks (gs : List Resources) :
    ∀ (nm : String) (a : List (String × String)) (t : Option String)
      (ch : List XElem) (rest : List XFrame) (root : Option XElem),
      tbRun (groupsToks gs) ⟨⟨nm, a, t, ch⟩ :: rest, root⟩
        = some ⟨⟨nm, a,
            if gs.isEmpty then t
            else if ch.isEmpty && t.isNone then some "\n    " else t,
            ch ++ gs.map groupElem⟩ :: rest, root⟩ := by
  induction gs with
  | nil => intro nm a t ch rest root; simp [groupsToks, tbRun]
  | cons g gs ih =>
    intro nm a t ch rest root
    rw [show groupsToks (g :: gs) = groupToks g ++ groupsToks gs from rfl]
    refine tbRun_seq (tbRun_groupToks g nm a t ch rest root) ?_
    rw [ih]
    have hne : (ch ++ [groupElem g]).isEmpty = false := by
      cases ch <;> rfl
    rw [hne]
    cases gs with
    | nil => simp
    | cons g2 gs2 => simp

/-- The token stream of a saved file builds the expected document tree. -/
theorem treeBuild_docToks (gs : List Resources) :
    treeBuild (docToks gs) = some (rccElem gs) := by
  have hrun : tbRun (docToks gs) ⟨[], none⟩ = some ⟨[], some (rccElem gs)⟩ := by
    rw [show docToks gs
        = [.topen "RCC" [("version", "1.0")]] ++ (groupsToks gs
          ++ [.chars "\n", .tclose "RCC"]) from by simp [docToks]]
    refine tbRun_seq (show tbRun [.topen "RCC" [("version", "1.0")]] ⟨[], none⟩
      = some ⟨[⟨"RCC", [("version", "1.0")], none, []⟩], none⟩ from rfl) ?_
    refine tbRun_seq (tbRun_groupsToks gs "RCC" [("version", "1.0")] none [] [] none) ?_
    rw [show tbRun [.chars "\n", .tclose "RCC"]
        ⟨[⟨"RCC", [("version", "1.0")],
            if gs.isEmpty then none
            else if List.isEmpty [] && Option.isNone none then some "\n    " else none,
            [] ++ gs.map groupElem⟩], none⟩
        = (tbStep ⟨[⟨"RCC", [("version", "1.0")],
            if gs.isEmpty then none
            else if List.isEmpty [] && Option.isNone none then some "\n    " else none,
            [] ++ gs.map groupElem⟩], none⟩ (.chars "\n")).bind
              (tbRun [.tclose "RCC"]) from rfl, tbStep_chars]
    cases hgs : gs with
    | nil =>
      rw [Option.some_bind]
      unfold rccElem
      rfl
    | cons g2 gs2 =>
      rw [Option.some_bind]
      unfold rccElem
      rfl
  unfold treeBuild
  rw [hrun]
  rfl

/-- The whole parse of a saved benign file. -/
theorem parseDoc_savedText (gs : List Resources) (hb : benignGroups gs = true) :
    parseDoc (savedText gs) = some (rccElem gs) := by
  unfold parseDoc
  rw [tokenize_savedText gs hb]
  exact treeBuild_docToks gs

/-- The `load` loop recovers a benign entry from its written element. -/
theorem entry_recover {r : Resource} (hb : benignEntry r = true) :
    (⟨(entryElem r).text, lookupAttr (entryElem r).attrs "alias"⟩ : Resource) = r := by
  obtain ⟨f, hfv, hfne, -⟩ := benignEntry_file hb
  rcases benignEntry_alias hb with hra | ⟨a, hra, hane, -⟩
  · have h1 : lookupAttr (aliasAttrs r) "alias" = none := by
      simp [aliasAttrs, pyTruthy, hra, lookupAttr]
    have h2 : (entryElem r).text = r.file := by
      simp [entryElem, pyFormat, hfv]
    rw [show (entryElem r).attrs = aliasAttrs r from rfl, h1, h2, ← hra]
  · have h1 : lookupAttr (aliasAttrs r) "alias" = some a := by
      simp [aliasAttrs, pyTruthy, pyFormat, hra, hane, lookupAttr, List.find?]
    have h2 : (entryElem r).text = r.file := by
      simp [entryElem, pyFormat, hfv]
    rw [show (entryElem r).attrs = aliasAttrs r from rfl, h1, h2, ← hra]

theorem entries_recover (l : List Resource) (hb : l.all benignEntry = true) :
    (l.map entryElem).map (fun x => (⟨x.text, lookupAttr x.attrs "alias"⟩ : Resource)) = l := by
  induction l with
  | nil => rfl
  | cons r l ih =>
    rw [List.all_cons, Bool.and_eq_true] at hb
    simp only [List.map_cons]
    rw [entry_recover hb.1, ih hb.2]

/-- The `load` loop recovers a benign group from its written element. -/
theorem group_recover {g : Resources} (hb : benignGroup g = true) :
    childToGroup (groupElem g) = g := by
  obtain ⟨lang, pre, ent⟩ := g
  unfold benignGroup at hb
  simp only [Bool.and_eq_true] at hb
  have hent : ent.all benignEntry = true := hb.2
  unfold childToGroup groupElem gAttrs
  simp only [Resources.mk.injEq]
  refine ⟨?_, ?_, ?_⟩
  · cases lang <;> cases pre <;> simp [lookupAttr, List.find?]
  · cases lang <;> cases pre <;> simp [lookupAttr, List.find?]
  · exact entries_recover ent hent

theorem groups_recover (gs : List Resources) (hb : benignGroups gs = true) :
    (gs.map groupElem).map childToGroup = gs := by
  induction gs with
  | nil => rfl
  | cons g gs ih =>
    unfold benignGroups at hb
    rw [List.all_cons, Bool.and_eq_true] at hb
    simp only [List.map_cons]
    rw [group_recover hb.1, ih hb.2]

/-- C1 counterexample: an entry whose alias is the empty string `''` (a
value distinct from `None`) is saved WITHOUT an `alias` attribute — the
`alias` emission tests Python truthiness, not `is not None` — so loading
the saved file yields alias `None`: absent and empty string are NOT
preserved distinctly (and nothing is XML-escaped by `save` at all). -/
theorem c1_counterexample :
    load (fun q => if q = "r.qrc"
        then some (savedText [⟨none, none, [⟨some "a.png", some ""⟩]⟩]) else none)
        ⟨[], none, false⟩ "r.qrc"
      = .ok (⟨[⟨none, none, [⟨some "a.png", none⟩]⟩], some "r.qrc", false⟩, true,
          "Loaded 1 resources from r.qrc") ∧
      ([⟨none, none, [⟨some "a.png", none⟩]⟩] : List Resources)
        ≠ [⟨none, none, [⟨some "a.png", some ""⟩]⟩] := by
  constructor
  · rfl
  · decide

/-- C1 (amended): `save` followed by `load` of the saved file restores the
identical group order, entry order, paths and tag/alias optionality — for
every collection whose language/prefix tags are absent or XML-benign
attribute strings (no `"`, `<`, `&`, XML-illegal control characters or
whitespace-control characters), whose aliases are absent or non-empty
XML-benign attribute strings, and whose paths are non-empty XML-benign
character data (no `<`, `&`, `\r`, XML-illegal characters, and no `]]>`
sequence).  `save` does not escape, so XML metacharacters, `]]>` and
illegal control characters corrupt the file (`ParseError` on reload); an
empty path loads back as absent and an `''` alias degrades to absent, see
the counterexample. -/
theorem c1_roundtrip_benign (c c₀ : ResourceCollection) (p : String) (hp : p ≠ "")
    (hb : benignGroups c.groups = true) :
    save (fun _ => true) c p
        = .ok (⟨c.groups, some p, false⟩, savedText c.groups,
            "Saved " ++ toString (countEntries c.groups) ++ " resources to " ++ pyBasename p) ∧
      load (fun q => if q = p then some (savedText c.groups) else none) c₀ p
        = .ok (⟨c.groups, some p, false⟩, true,
            "Loaded " ++ toString (countEntries c.groups) ++ " resources from "
              ++ pyBasename p) := by
  have hparse := parseDoc_savedText c.groups hb
  have hrec : (rccElem c.groups).children.map childToGroup = c.groups := by
    rw [show (rccElem c.groups).children = c.groups.map groupElem from rfl]
    exact groups_recover c.groups hb
  constructor
  · unfold save saveAt
    simp [hp]
  · unfold load loadAt
    simp [hp, hparse, hrec]

theorem c1_roundtrip_benign_witness :
    save (fun _ => true)
        ⟨[⟨some "en", some "img", [⟨some "a.png", some "icon"⟩, ⟨some "b.png", none⟩]⟩],
          none, true⟩ "r.qrc"
      = .ok (⟨[⟨some "en", some "img",
              [⟨some "a.png", some "icon"⟩, ⟨some "b.png", none⟩]⟩], some "r.qrc", false⟩,
          savedText [⟨some "en", some "img",
            [⟨some "a.png", some "icon"⟩, ⟨some "b.png", none⟩]⟩],
          "Saved " ++ toString (countEntries [⟨some "en", some "img",
            [⟨some "a.png", some "icon"⟩, ⟨some "b.png", none⟩]⟩])
            ++ " resources to " ++ pyBasename "r.qrc") ∧
      load (fun q => if q = "r.qrc"
          then some (savedText [⟨some "en", some "img",
            [⟨some "a.png", some "icon"⟩, ⟨some "b.png", none⟩]⟩]) else none)
        ⟨[], none, false⟩ "r.qrc"
      = .ok (⟨[⟨some "en", some "img",
              [⟨some "a.png", some "icon"⟩, ⟨some "b.png", none⟩]⟩], some "r.qrc", false⟩,
          true,
          "Loaded " ++ toString (countEntries [⟨some "en", some "img",
            [⟨some "a.png", some "icon"⟩, ⟨some "b.png", none⟩]⟩])
            ++ " resources from " ++ pyBasename "r.qrc") :=
  c1_roundtrip_benign
    ⟨[⟨some "en", some "img", [⟨some "a.png", some "icon"⟩, ⟨some "b.png", none⟩]⟩],
      none, true⟩
    ⟨[], none, false⟩ "r.qrc" (by decide) (by decide)

theorem c10_remove_is_noop_witness :
    (removeResources ⟨[⟨none, some "x", []⟩], some "f.qrc", false⟩ ⟨none, some "x", []⟩
        = (⟨[⟨none, some "x", []⟩], some "f.qrc", true⟩, true)) ∧
      (removeResources ⟨[⟨none, some "x", []⟩], some "f.qrc", false⟩ ⟨none, some "y", []⟩
        = (⟨[⟨none, some "x", []⟩], some "f.qrc", false⟩, false)) :=
  ⟨(c10_remove_is_noop ⟨[⟨none, some "x", []⟩], some "f.qrc", false⟩ ⟨none, some "x", []⟩).2.2
      (by decide),
    (c10_remove_is_noop ⟨[⟨none, some "x", []⟩], some "f.qrc", false⟩ ⟨none, some "y", []⟩).2.1
      (by decide)⟩

end Qrc
